import Mathlib

/- Shallow embedding of the OpenChirp math-avg-service (src/main.go).
   Go strings are modelled as lists of characters.  Go float64 values are
   modelled exactly: NaN and the two infinities are explicit constructors
   and every finite double is idealized as a rational number (the spec
   declares rounding behaviour a non-goal), so sums and quotients are
   exact where Go would round. -/

/-- Model of a Go string as a list of characters. -/
abbrev GoStr := List Char

/-- Model of a Go float64 value: NaN, a signed infinity (true means
negative), or a finite value idealized as a rational number. -/
inductive GoF where
  | nan : GoF
  | inf : Bool → GoF
  | fin : ℚ → GoF
deriving DecidableEq, Repr

/-- Model of math.IsNaN. -/
def GoF.isNaN : GoF → Bool
  | .nan => true
  | _ => false

/-- True when the value is one of the two IEEE infinities. -/
def GoF.isInf : GoF → Bool
  | .inf _ => true
  | _ => false

/-- IEEE-754 addition on the model (exact on finite values). -/
def GoF.add : GoF → GoF → GoF
  | .nan, _ => .nan
  | _, .nan => .nan
  | .inf b, .inf c => if b = c then .inf b else .nan
  | .inf b, .fin _ => .inf b
  | .fin _, .inf b => .inf b
  | .fin a, .fin b => .fin (a + b)

/-- IEEE-754 division of a float64 by a nonnegative integer count, as in
the expression sum / float64(count) of calculateAverage: 0/0 is NaN, x/0
for x nonzero is a signed infinity, and finite division is exact. -/
def GoF.divNat : GoF → Nat → GoF
  | .nan, _ => .nan
  | .inf b, _ => .inf b
  | .fin q, 0 => if q = 0 then .nan else .inf (decide (q < 0))
  | .fin q, (n + 1) => .fin (q / ((n : ℚ) + 1))

/-- Split a character list at every occurrence of the separator, keeping
empty segments, exactly like Go strings.Split with a one-character
separator: the empty input yields one empty segment. -/
def splitChar (c : Char) : GoStr → List GoStr
  | [] => [[]]
  | x :: xs =>
    match splitChar c xs with
    | [] => [[]]
    | y :: ys => if x = c then [] :: y :: ys else (x :: y) :: ys

/-- src/main.go lines 70-77: strip every space character, split on
commas, and turn the single-empty-segment result into the empty list. -/
def commaList (str : GoStr) : List GoStr :=
  let nospacestr := str.filter (fun ch => ch != ' ')
  let elements := splitChar ',' nospacestr
  if elements.length = 1 && (elements.getD 0 []).length = 0 then [] else elements

/-- Decimal value of a digit string, most significant digit first. -/
def digitsVal (s : GoStr) : Nat :=
  s.foldl (fun a c => a * 10 + (c.toNat - Char.toNat '0')) 0

/-- Parse a nonempty all-digit string, as strconv does for base 10
(underscores are rejected when an explicit base is given). -/
def digitsVal? (s : GoStr) : Option Nat :=
  if s ≠ [] ∧ s.all Char.isDigit then some (digitsVal s) else none

/-- Strip one leading sign character; true means negative. -/
def splitSign : GoStr → Bool × GoStr
  | [] => (false, [])
  | c :: rest =>
    if c = '+' then (false, rest)
    else if c = '-' then (true, rest)
    else (false, c :: rest)

/-- Largest value of the Go int32 type. -/
def int32Max : Int := 2 ^ 31 - 1

/-- Smallest value of the Go int32 type. -/
def int32Min : Int := -(2 ^ 31)

/-- Model of strconv.ParseInt(s, 10, 32) as called at src/main.go line
141: optional sign, nonempty decimal digits, and a 32-bit range check;
any violation is an error, modelled as none. -/
def goParseInt32 (s : GoStr) : Option Int :=
  let p := splitSign s
  match digitsVal? p.2 with
  | none => none
  | some m =>
    let v : Int := if p.1 then -(m : Int) else (m : Int)
    if v < int32Min ∨ int32Max < v then none else some v

/-- Mantissa of a decimal float literal: digits with at most one dot and
at least one digit in total. -/
def parseMantissa (m : GoStr) : Option ℚ :=
  match splitChar '.' m with
  | [ip] =>
    if ip ≠ [] ∧ ip.all Char.isDigit then some ((digitsVal ip : ℚ)) else none
  | [ip, fp] =>
    if (ip ≠ [] ∨ fp ≠ []) ∧ ip.all Char.isDigit ∧ fp.all Char.isDigit then
      some ((digitsVal ip : ℚ) + (digitsVal fp : ℚ) / (10 : ℚ) ^ fp.length)
    else none
  | _ => none

/-- Signed decimal exponent after the e of a float literal. -/
def parseExp (ex : GoStr) : Option Int :=
  let p := splitSign ex
  match digitsVal? p.2 with
  | none => none
  | some m => some (if p.1 then -(m : Int) else (m : Int))

/-- Model of strconv.ParseFloat(s, 64) as called at src/main.go line 187:
case-insensitive nan (unsigned) and inf/infinity (optionally signed)
specials, else an optionally signed decimal mantissa with an optional
decimal exponent.  Hexadecimal floats, digit-separator underscores and
the overflow-to-infinity range error of the library parser are outside
the model; no claim depends on them. -/
def goParseFloat (s : GoStr) : Option GoF :=
  let low := s.map Char.toLower
  if low = "nan".toList then some .nan
  else
    let p := splitSign low
    if p.2 = "inf".toList ∨ p.2 = "infinity".toList then some (.inf p.1)
    else
      match splitChar 'e' p.2 with
      | [m] => (parseMantissa m).map (fun q => GoF.fin (if p.1 then -q else q))
      | [m, ex] =>
        match parseMantissa m, parseExp ex with
        | some q, some e =>
          some (.fin ((if p.1 then -q else q) * (10 : ℚ) ^ e))
        | _, _ => none
      | _ => none

/-- src/main.go lines 80-84: per-device state, three parallel slices. -/
structure Device where
  outtopics : List GoStr
  lastvalues : List (List GoF)
  nextindex : List Nat
deriving DecidableEq, Repr

/-- src/main.go lines 92-96.  Go would panic on an out-of-range topic
index; the model totalizes the slice reads with default values and the
writes with the no-op behaviour of List.set. -/
def addLastValue (d : Device) (topicIndex : Nat) (value : GoF) : Device :=
  let nextIndex := d.nextindex.getD topicIndex 0
  let buf := (d.lastvalues.getD topicIndex []).set nextIndex value
  { d with
    lastvalues := d.lastvalues.set topicIndex buf
    nextindex := d.nextindex.set topicIndex ((nextIndex + 1) % buf.length) }

/-- src/main.go lines 102-110: the accumulation loop of
calculateAverage, carried over the (sum, count) pair. -/
def avgLoop : List GoF → GoF × Nat → GoF × Nat
  | [], acc => acc
  | val :: rest, (sum, count) =>
    if val.isNaN then avgLoop rest (sum, count - 1)
    else avgLoop rest (sum.add val, count)

/-- src/main.go lines 101-112: sum the non-NaN slots, decrement the
divisor once per NaN slot, and divide. -/
def calculateAverage (d : Device) (topicIndex : Nat) : GoF :=
  let buf := d.lastvalues.getD topicIndex []
  let r := avgLoop buf (.fin 0, buf.length)
  r.1.divNat r.2

/-- src/main.go line 60. -/
def defaultWindowSize : Nat := 2

/-- src/main.go line 61. -/
def defaultOutputTopicSuffix : GoStr := "_avg".toList

/-- src/main.go lines 139-149: a present WindowSizes entry must parse as
an int32 (else the whole link fails, modelled as none); a parsed positive
value is the window size, otherwise the default applies. -/
def parseWinsize (entry : GoStr) : Option Nat :=
  match goParseInt32 entry with
  | none => none
  | some val => some (if 0 < val then val.toNat else defaultWindowSize)

/-- Result of ProcessLink: the returned status string, the device state
left behind, and the subscriptions performed through ctrl.Subscribe
(topic, message key) in order. -/
structure LinkOutcome where
  status : GoStr
  dev : Device
  subs : List (GoStr × Nat)
deriving DecidableEq, Repr

/-- src/main.go lines 129-157: the loop body of ProcessLink, iterating
over the remaining input topics starting at index i. -/
def linkLoop (outputTopics windowSizes : List GoStr) :
    List GoStr → Nat → Device → List (GoStr × Nat) → LinkOutcome
  | [], _, d, subs => ⟨"Success".toList, d, subs⟩
  | intopic :: rest, i, d, subs =>
    let outtopic :=
      if i < outputTopics.length then outputTopics.getD i []
      else intopic ++ defaultOutputTopicSuffix
    let d1 : Device := { d with outtopics := d.outtopics.set i outtopic }
    let winres : Option Nat :=
      if i < windowSizes.length then parseWinsize (windowSizes.getD i [])
      else some defaultWindowSize
    match winres with
    | none => ⟨"Failed to parse WindowSize".toList, d1, subs⟩
    | some winsize =>
      let d2 : Device :=
        { d1 with lastvalues := d1.lastvalues.set i (List.replicate winsize .nan) }
      linkLoop outputTopics windowSizes rest (i + 1) d2 (subs ++ [(intopic, i)])

/-- src/main.go lines 116-163: parse the three comma lists, allocate the
three parallel slices (Go make zero-fills them), run the per-topic loop.
A missing configuration key reads as the empty string (Go map zero
value). -/
def ProcessLink (inRaw outRaw winRaw : GoStr) : LinkOutcome :=
  let inputTopics := commaList inRaw
  let outputTopics := commaList outRaw
  let windowSizes := commaList winRaw
  let d0 : Device :=
    ⟨List.replicate inputTopics.length [],
     List.replicate inputTopics.length [],
     List.replicate inputTopics.length 0⟩
  linkLoop outputTopics windowSizes inputTopics 0 d0 []

/-- Result of ProcessMessage: the device state afterwards and the
ctrl.Publish call, if any, as (output topic, published average). -/
structure MsgOutcome where
  dev : Device
  published : Option (GoStr × GoF)
deriving DecidableEq, Repr

/-- src/main.go lines 182-199: parse the payload; on failure return with
no state change and no publication, otherwise ingest the value and
publish the new average on the channel output topic (the published
number stands for its FormatFloat64 rendering by the framework utils). -/
def ProcessMessage (d : Device) (index : Nat) (payload : GoStr) : MsgOutcome :=
  match goParseFloat payload with
  | none => ⟨d, none⟩
  | some value =>
    let d2 := addLastValue d index value
    let avg := calculateAverage d2 index
    ⟨d2, some (d2.outtopics.getD index [], avg)⟩

/-- Spec-side restatement of the splitting contract of section 4.1:
strip all space characters, split on comma, and an empty remainder
yields an empty list. -/
def commaListSpec (s : GoStr) : List GoStr :=
  let ns := s.filter (fun ch => ch != ' ')
  if ns = [] then [] else splitChar ',' ns

/-- A single-channel device exactly as ProcessLink creates each channel:
one output topic, a window of n NaN-initialized slots, cursor 0. -/
def freshDevice (outtopic : GoStr) (n : Nat) : Device :=
  ⟨[outtopic], [List.replicate n .nan], [0]⟩

/-- Iterated ingestion (one addLastValue per sample) on channel i. -/
def ingestList (d : Device) (i : Nat) (vs : List GoF) : Device :=
  vs.foldl (fun dd v => addLastValue dd i v) d

/-- One ingest step on a single channel in isolation: overwrite the slot
at the cursor, advance the cursor modulo the (unchanged) window length,
exactly as addLastValue does for the selected channel. -/
def stepBuf (s : List GoF × Nat) (v : GoF) : List GoF × Nat :=
  ((s.1.set s.2 v), (s.2 + 1) % (s.1.set s.2 v).length)

/-- Source-list position whose sample sits in window slot j after k
ingests into a window of length n (the last write to slot j). -/
def winIdx (n k j : Nat) : Nat := j + n * ((k - 1 - j) / n)

/-- Contents of window slot j after k ingests of the samples qs into a
fresh window of length n: untouched slots keep the NaN marker. -/
def slotAfter (n k : Nat) (qs : List ℚ) (j : Nat) : GoF :=
  if j < k then .fin (qs.getD (winIdx n k j) 0) else .nan

/-- Number of NaN entries of a window. -/
def nanCount : List GoF → Nat
  | [] => 0
  | v :: r => (if v.isNaN then 1 else 0) + nanCount r

/-- Number of non-NaN entries of a window. -/
def nonNaNCount : List GoF → Nat
  | [] => 0
  | v :: r => (if v.isNaN then 0 else 1) + nonNaNCount r

/-- Exact sum of the finite entries of a window. -/
def finSum : List GoF → ℚ
  | [] => 0
  | .fin q :: r => q + finSum r
  | _ :: r => finSum r

/-- The subscriptions ProcessLink performs for a topic list, starting at
message key i: one (topic, key) pair per topic, in order. -/
def subsFrom : Nat → List GoStr → List (GoStr × Nat)
  | _, [] => []
  | i, t :: r => (t, i) :: subsFrom (i + 1) r

/-- Window size chosen for channel m: the parsed entry when present (2
when it parses nonpositive), the default 2 when absent. -/
def winsizeAt (winT : List GoStr) (m : Nat) : Nat :=
  if m < winT.length then (parseWinsize (winT.getD m [])).getD defaultWindowSize
  else defaultWindowSize

/-- Output topic chosen for channel m with input topic t: the explicit
entry when present, else the input topic with the suffix appended. -/
def outtopicAt (outT : List GoStr) (t : GoStr) (m : Nat) : GoStr :=
  if m < outT.length then outT.getD m [] else t ++ defaultOutputTopicSuffix

/- Helper lemmas on lists. -/

lemma getD_set_ne {α} (l : List α) (i j : Nat) (x : α) (d : α) (h : j ≠ i) :
    (l.set i x).getD j d = l.getD j d := by
  simp [List.getD, List.getElem?_set_ne (Ne.symm h)]

lemma getD_set_self {α} (l : List α) (i : Nat) (x : α) (d : α) (h : i < l.length) :
    (l.set i x).getD i d = x := by
  simp [List.getD, List.getElem?_set_self, h]

lemma splitChar_ne_nil (c : Char) (l : GoStr) : splitChar c l ≠ [] := by
  cases l with
  | nil => simp [splitChar]
  | cons x xs =>
    simp only [splitChar]
    cases h : splitChar c xs with
    | nil => simp
    | cons y ys => by_cases hx : x = c <;> simp [hx]

/-- C5: for every input, commaList removes all space characters, splits
the remainder on commas, and returns the resulting list, except that an
empty remainder yields the empty list; with the two round-trip
examples of the spec. -/
theorem commaList_correct :
    (∀ s : GoStr, commaList s = commaListSpec s) ∧
    commaList "a, b,c".toList = ["a".toList, "b".toList, "c".toList] ∧
    commaList "".toList = [] := by
  refine ⟨fun s => ?_, by decide, by decide⟩
  unfold commaList commaListSpec
  cases hns : s.filter (fun ch => ch != ' ') with
  | nil => simp [splitChar]
  | cons x xs =>
    cases hsp : splitChar ',' xs with
    | nil => exact absurd hsp (splitChar_ne_nil ',' xs)
    | cons y ys =>
      simp only [splitChar, hsp]
      split
      · simp
      · simp

/-- C9: when the InputTopics value is empty, all spaces or missing (so
that commaList yields the empty list), ProcessLink returns "Success"
while creating zero channels and registering zero subscriptions,
whatever the other two configuration values are. -/
theorem processLink_empty_inputs (inRaw outRaw winRaw : GoStr)
    (h : commaList inRaw = []) :
    ProcessLink inRaw outRaw winRaw = ⟨"Success".toList, ⟨[], [], []⟩, []⟩ := by
  simp only [ProcessLink, h]
  rfl

theorem processLink_empty_inputs_witness :
    ProcessLink [] "zz".toList "bad".toList = ⟨"Success".toList, ⟨[], [], []⟩, []⟩ :=
  processLink_empty_inputs [] "zz".toList "bad".toList (by decide)

/-- C3: a payload that does not parse as a 64-bit float leaves the whole
device state (every channel's window and cursor) unchanged and makes no
Publish call, and a subsequent payload on the channel is processed
exactly as if the malformed message had never arrived. -/
theorem processMessage_malformed (d : Device) (i : Nat) (p : GoStr)
    (h : goParseFloat p = none) :
    ProcessMessage d i p = ⟨d, none⟩ ∧
    (∀ p2 : GoStr,
      ProcessMessage ((ProcessMessage d i p).dev) i p2 = ProcessMessage d i p2) := by
  have h1 : ProcessMessage d i p = ⟨d, none⟩ := by
    unfold ProcessMessage
    rw [h]
  exact ⟨h1, fun p2 => by rw [h1]⟩

theorem processMessage_malformed_witness :
    ProcessMessage (freshDevice ['x'] 2) 0 "notanumber".toList
        = ⟨freshDevice ['x'] 2, none⟩ ∧
    (∀ p2 : GoStr,
      ProcessMessage ((ProcessMessage (freshDevice ['x'] 2) 0 "notanumber".toList).dev) 0 p2
        = ProcessMessage (freshDevice ['x'] 2) 0 p2) :=
  processMessage_malformed (freshDevice ['x'] 2) 0 "notanumber".toList (by decide)

/-- C8: ingesting a sample on channel i, directly through addLastValue or
through ProcessMessage, leaves every other channel's window, cursor and
output topic unchanged (output topics are not touched at all). -/
theorem ingest_channel_local (d : Device) (i j : Nat) (v : GoF) (p : GoStr)
    (hij : j ≠ i) :
    ((addLastValue d i v).outtopics = d.outtopics ∧
     (addLastValue d i v).lastvalues.getD j [] = d.lastvalues.getD j [] ∧
     (addLastValue d i v).nextindex.getD j 0 = d.nextindex.getD j 0) ∧
    ((ProcessMessage d i p).dev.outtopics = d.outtopics ∧
     (ProcessMessage d i p).dev.lastvalues.getD j [] = d.lastvalues.getD j [] ∧
     (ProcessMessage d i p).dev.nextindex.getD j 0 = d.nextindex.getD j 0) := by
  have key : ∀ w : GoF,
      (addLastValue d i w).outtopics = d.outtopics ∧
      (addLastValue d i w).lastvalues.getD j [] = d.lastvalues.getD j [] ∧
      (addLastValue d i w).nextindex.getD j 0 = d.nextindex.getD j 0 := by
    intro w
    refine ⟨rfl, ?_, ?_⟩
    · exact getD_set_ne d.lastvalues i j _ [] hij
    · exact getD_set_ne d.nextindex i j _ 0 hij
  refine ⟨key v, ?_⟩
  unfold ProcessMessage
  cases hpf : goParseFloat p with
  | none => exact ⟨rfl, rfl, rfl⟩
  | some w => exact key w

theorem ingest_channel_local_witness :
    ((addLastValue (freshDevice ['x'] 2) 0 (.fin 1)).outtopics
        = (freshDevice ['x'] 2).outtopics ∧
     (addLastValue (freshDevice ['x'] 2) 0 (.fin 1)).lastvalues.getD 1 []
        = (freshDevice ['x'] 2).lastvalues.getD 1 [] ∧
     (addLastValue (freshDevice ['x'] 2) 0 (.fin 1)).nextindex.getD 1 0
        = (freshDevice ['x'] 2).nextindex.getD 1 0) ∧
    ((ProcessMessage (freshDevice ['x'] 2) 0 "7".toList).dev.outtopics
        = (freshDevice ['x'] 2).outtopics ∧
     (ProcessMessage (freshDevice ['x'] 2) 0 "7".toList).dev.lastvalues.getD 1 []
        = (freshDevice ['x'] 2).lastvalues.getD 1 [] ∧
     (ProcessMessage (freshDevice ['x'] 2) 0 "7".toList).dev.nextindex.getD 1 0
        = (freshDevice ['x'] 2).nextindex.getD 1 0) :=
  ingest_channel_local (freshDevice ['x'] 2) 0 1 (.fin 1) "7".toList (by decide)

lemma calculateAverage_def (d : Device) (i : Nat) :
    calculateAverage d i =
      ((avgLoop (d.lastvalues.getD i []) (.fin 0, (d.lastvalues.getD i []).length)).1).divNat
        (avgLoop (d.lastvalues.getD i []) (.fin 0, (d.lastvalues.getD i []).length)).2 := rfl

lemma avgLoop_char (buf : List GoF) (hnoinf : ∀ v ∈ buf, v.isInf = false) :
    ∀ (a : ℚ) (c : Nat),
      avgLoop buf (.fin a, c) = (.fin (a + finSum buf), c - nanCount buf) := by
  induction buf with
  | nil => intro a c; simp [avgLoop, finSum, nanCount]
  | cons v rest ih =>
    intro a c
    have hv : v.isInf = false := hnoinf v (by simp)
    have hrest : ∀ u ∈ rest, u.isInf = false := fun u hu => hnoinf u (by simp [hu])
    cases v with
    | nan =>
      simp [avgLoop, GoF.isNaN, finSum, nanCount, ih hrest, Nat.sub_sub]
    | inf b => simp [GoF.isInf] at hv
    | fin q =>
      simp [avgLoop, GoF.isNaN, GoF.add, finSum, nanCount, ih hrest, add_assoc]

lemma nanCount_add_nonNaNCount (l : List GoF) : nanCount l + nonNaNCount l = l.length := by
  induction l with
  | nil => simp [nanCount, nonNaNCount]
  | cons v r ih =>
    cases hv : v.isNaN <;> simp [nanCount, nonNaNCount, hv, List.length_cons] <;> omega

lemma finSum_eq_zero_of_all_nan (l : List GoF) (hnoinf : ∀ v ∈ l, v.isInf = false)
    (h : nonNaNCount l = 0) : finSum l = 0 := by
  induction l with
  | nil => rfl
  | cons v r ih =>
    cases v with
    | nan =>
      exact ih (fun u hu => hnoinf u (by simp [hu]))
        (by simpa [nonNaNCount, GoF.isNaN] using h)
    | inf b => simpa [GoF.isInf] using hnoinf (.inf b) (by simp)
    | fin q => simp [nonNaNCount, GoF.isNaN] at h

/-- C4 counterexample: in a fresh window of size 2, ingest NaN and then
10; the NaN sample is still inside the window (only two ingests have
happened), yet the computed average is 10, not NaN. -/
theorem nan_poisoning_counterexample :
    calculateAverage
      (addLastValue (addLastValue (freshDevice ['x'] 2) 0 .nan) 0 (.fin 10)) 0
      = .fin 10 ∧
    (calculateAverage
      (addLastValue (addLastValue (freshDevice ['x'] 2) 0 .nan) 0 (.fin 10)) 0).isNaN
      = false := by
  have h : calculateAverage
      (addLastValue (addLastValue (freshDevice ['x'] 2) 0 .nan) 0 (.fin 10)) 0
      = .fin 10 := by
    norm_num [calculateAverage, addLastValue, freshDevice, avgLoop, GoF.isNaN,
      GoF.add, GoF.divNat]
  exact ⟨h, by rw [h]; rfl⟩

/-- On a window without infinities, calculateAverage returns the exact
mean of the non-NaN entries, and NaN exactly when every slot is NaN. -/
lemma calculateAverage_skips_nan (d : Device) (i : Nat)
    (hnoinf : ∀ v ∈ d.lastvalues.getD i [], v.isInf = false) :
    calculateAverage d i =
      if nonNaNCount (d.lastvalues.getD i []) = 0 then .nan
      else .fin (finSum (d.lastvalues.getD i [])
                  / (nonNaNCount (d.lastvalues.getD i []) : ℚ)) := by
  rw [calculateAverage_def]
  rw [avgLoop_char (d.lastvalues.getD i []) hnoinf 0 (d.lastvalues.getD i []).length]
  have hc : (d.lastvalues.getD i []).length - nanCount (d.lastvalues.getD i [])
      = nonNaNCount (d.lastvalues.getD i []) := by
    have := nanCount_add_nonNaNCount (d.lastvalues.getD i []); omega
  simp only [hc]
  by_cases h0 : nonNaNCount (d.lastvalues.getD i []) = 0
  · rw [h0, if_pos rfl, finSum_eq_zero_of_all_nan (d.lastvalues.getD i []) hnoinf h0]
    norm_num [GoF.divNat]
  · obtain ⟨m, hm⟩ : ∃ m, nonNaNCount (d.lastvalues.getD i []) = m + 1 :=
      ⟨nonNaNCount (d.lastvalues.getD i []) - 1, by omega⟩
    rw [hm]
    simp only [GoF.divNat, Nat.succ_ne_zero, if_false]
    push_cast
    ring_nf

/-- C4 amended: a NaN sample is not passed through the arithmetic;
calculateAverage skips NaN values, excluding them from both the sum and
the divisor, so on a window without infinities the average is the exact
mean of the non-NaN entries, and is NaN exactly when every slot is
NaN. -/
theorem nan_excluded_from_average (d : Device) (i : Nat)
    (hnoinf : ∀ v ∈ d.lastvalues.getD i [], v.isInf = false) :
    calculateAverage d i =
      if nonNaNCount (d.lastvalues.getD i []) = 0 then .nan
      else .fin (finSum (d.lastvalues.getD i [])
                  / (nonNaNCount (d.lastvalues.getD i []) : ℚ)) :=
  calculateAverage_skips_nan d i hnoinf

theorem nan_excluded_from_average_witness :
    calculateAverage (⟨[['x']], [[GoF.nan, GoF.fin 10]], [0]⟩ : Device) 0 =
      if nonNaNCount ((⟨[['x']], [[GoF.nan, GoF.fin 10]], [0]⟩ : Device).lastvalues.getD 0 []) = 0
      then .nan
      else .fin (finSum ((⟨[['x']], [[GoF.nan, GoF.fin 10]], [0]⟩ : Device).lastvalues.getD 0 [])
            / (nonNaNCount ((⟨[['x']], [[GoF.nan, GoF.fin 10]], [0]⟩ : Device).lastvalues.getD 0 []) : ℚ)) :=
  nan_excluded_from_average (⟨[['x']], [[GoF.nan, GoF.fin 10]], [0]⟩ : Device) 0 (by decide)

lemma getD_replicate {α} (n i : Nat) (a d : α) (h : i < n) :
    (List.replicate n a).getD i d = a := by
  simp [List.getD, List.getElem?_replicate, h]

lemma parseWinsize_pos (entry : GoStr) (w : Nat) (h : parseWinsize entry = some w) :
    0 < w := by
  unfold parseWinsize at h
  cases hp : goParseInt32 entry with
  | none => rw [hp] at h; exact absurd h (by simp)
  | some val =>
    rw [hp] at h
    simp only [Option.some.injEq] at h
    subst h
    by_cases hv : 0 < val
    · simp only [hv, if_true]
      omega
    · simp only [hv, if_false]
      exact Nat.zero_lt_succ 1

lemma winsizeAt_pos (winT : List GoStr) (m : Nat) : 0 < winsizeAt winT m := by
  unfold winsizeAt
  by_cases h : m < winT.length
  · simp only [h, if_true]
    cases hp : parseWinsize (winT.getD m []) with
    | none => simp [defaultWindowSize]
    | some w => simpa using parseWinsize_pos _ w hp
  · simp [h, defaultWindowSize]

lemma linkLoop_nextindex (outT winT : List GoStr) (topics : List GoStr) :
    ∀ (i : Nat) (d : Device) (subs : List (GoStr × Nat)),
      (linkLoop outT winT topics i d subs).dev.nextindex = d.nextindex := by
  induction topics with
  | nil => intro i d subs; rfl
  | cons t rest ih =>
    intro i d subs
    simp only [linkLoop]
    cases hw : (if i < winT.length then parseWinsize (winT.getD i [])
        else some defaultWindowSize) with
    | none => rfl
    | some w => exact ih (i + 1) _ _

lemma linkLoop_char (outT winT : List GoStr) (topics : List GoStr) :
    ∀ (i : Nat) (d : Device) (subs : List (GoStr × Nat)),
      (∀ j, j < topics.length → i + j < winT.length →
        parseWinsize (winT.getD (i + j) []) ≠ none) →
      i + topics.length ≤ d.lastvalues.length →
      i + topics.length ≤ d.outtopics.length →
      (linkLoop outT winT topics i d subs).status = "Success".toList ∧
      (linkLoop outT winT topics i d subs).subs = subs ++ subsFrom i topics ∧
      (∀ m, m < i →
        (linkLoop outT winT topics i d subs).dev.outtopics.getD m []
            = d.outtopics.getD m [] ∧
        (linkLoop outT winT topics i d subs).dev.lastvalues.getD m []
            = d.lastvalues.getD m []) ∧
      (∀ j, j < topics.length →
        (linkLoop outT winT topics i d subs).dev.outtopics.getD (i + j) []
            = outtopicAt outT (topics.getD j []) (i + j) ∧
        (linkLoop outT winT topics i d subs).dev.lastvalues.getD (i + j) []
            = List.replicate (winsizeAt winT (i + j)) .nan) := by
  induction topics with
  | nil =>
    intro i d subs hok hl ho
    exact ⟨rfl, by simp [subsFrom, linkLoop], fun m hm => ⟨rfl, rfl⟩,
      fun j hj => absurd hj (by simp)⟩
  | cons t rest ih =>
    intro i d subs hok hl ho
    simp only [linkLoop]
    have hwin : (if i < winT.length then parseWinsize (winT.getD i [])
        else some defaultWindowSize) = some (winsizeAt winT i) := by
      unfold winsizeAt
      by_cases h : i < winT.length
      · simp only [h, if_true]
        have hne := hok 0 (by simp) (by simpa using h)
        rw [Nat.add_zero] at hne
        cases hp : parseWinsize (winT.getD i []) with
        | none => exact absurd hp hne
        | some w => simp [hp]
      · simp [h]
    simp only [hwin]
    obtain ⟨hst, hsubs, hframe, hentries⟩ :=
      ih (i + 1)
        ⟨d.outtopics.set i (if i < outT.length then outT.getD i []
            else t ++ defaultOutputTopicSuffix),
         d.lastvalues.set i (List.replicate (winsizeAt winT i) .nan),
         d.nextindex⟩
        (subs ++ [(t, i)])
        (fun j hj hw => by
          have e : i + 1 + j = i + (j + 1) := by omega
          rw [e] at hw ⊢
          exact hok (j + 1) (by simpa using Nat.succ_lt_succ hj) hw)
        (by simp only [List.length_set]; simp at hl; omega)
        (by simp only [List.length_set]; simp at ho; omega)
    refine ⟨hst, ?_, ?_, ?_⟩
    · rw [hsubs]
      simp [subsFrom, List.append_assoc]
    · intro m hm
      obtain ⟨f1, f2⟩ := hframe m (by omega)
      constructor
      · rw [f1]
        exact getD_set_ne d.outtopics i m _ [] (by omega)
      · rw [f2]
        exact getD_set_ne d.lastvalues i m _ [] (by omega)
    · intro j hj
      by_cases hj0 : j = 0
      · subst hj0
        obtain ⟨f1, f2⟩ := hframe i (by omega)
        refine ⟨?_, ?_⟩
        · exact f1.trans (by
            rw [getD_set_self d.outtopics i _ [] (by simp at ho; omega)]
            simp [outtopicAt])
        · exact f2.trans (getD_set_self d.lastvalues i _ [] (by simp at hl; omega))
      · obtain ⟨j2, rfl⟩ : ∃ j2, j = j2 + 1 := ⟨j - 1, by omega⟩
        have hj2 : j2 < rest.length := by simp at hj; omega
        obtain ⟨e1, e2⟩ := hentries j2 hj2
        have e : i + (j2 + 1) = i + 1 + j2 := by omega
        rw [e]
        exact ⟨e1.trans (by simp), e2⟩

lemma linkLoop_fail (outT winT : List GoStr) (topics : List GoStr) :
    ∀ (i : Nat) (d : Device) (subs : List (GoStr × Nat)) (f : Nat),
      f < topics.length →
      (∀ j, j < f → i + j < winT.length →
        parseWinsize (winT.getD (i + j) []) ≠ none) →
      i + f < winT.length →
      parseWinsize (winT.getD (i + f) []) = none →
      (linkLoop outT winT topics i d subs).status
          = "Failed to parse WindowSize".toList ∧
      (linkLoop outT winT topics i d subs).subs
          = subs ++ subsFrom i (topics.take f) := by
  induction topics with
  | nil => intro i d subs f hf _ _ _; exact absurd hf (by simp)
  | cons t rest ih =>
    intro i d subs f hf hok hfw hbad
    simp only [linkLoop]
    by_cases hf0 : f = 0
    · subst hf0
      have hfw2 : i < winT.length := by omega
      have hbad2 : parseWinsize (winT.getD i []) = none := by simpa using hbad
      have hnone : (if i < winT.length then parseWinsize (winT.getD i [])
          else some defaultWindowSize) = none := by rw [if_pos hfw2]; exact hbad2
      simp only [hnone]
      constructor <;> simp [subsFrom]
    · obtain ⟨f2, rfl⟩ : ∃ f2, f = f2 + 1 := ⟨f - 1, by omega⟩
      have hwin : (if i < winT.length then parseWinsize (winT.getD i [])
          else some defaultWindowSize) ≠ none := by
        by_cases h : i < winT.length
        · simpa [h] using hok 0 (by omega) (by simpa using h)
        · simp [h]
      cases hw : (if i < winT.length then parseWinsize (winT.getD i [])
          else some defaultWindowSize) with
      | none => exact absurd hw hwin
      | some w =>
        obtain ⟨hst, hsubs⟩ :=
          ih (i + 1)
            ⟨d.outtopics.set i (if i < outT.length then outT.getD i []
                else t ++ defaultOutputTopicSuffix),
             d.lastvalues.set i (List.replicate w .nan),
             d.nextindex⟩
            (subs ++ [(t, i)]) f2 (by simpa using hf)
            (fun j hj hw2 => by
              have e : i + 1 + j = i + (j + 1) := by omega
              rw [e] at hw2 ⊢
              exact hok (j + 1) (by omega) hw2)
            (by omega)
            (by
              have e : i + 1 + f2 = i + (f2 + 1) := by omega
              rw [e]; exact hbad)
        refine ⟨hst, ?_⟩
        rw [hsubs]
        simp [subsFrom, List.append_assoc]

lemma ProcessLink_char (inRaw outRaw winRaw : GoStr)
    (hok : ∀ j, j < (commaList inRaw).length → j < (commaList winRaw).length →
      parseWinsize ((commaList winRaw).getD j []) ≠ none) :
    (ProcessLink inRaw outRaw winRaw).status = "Success".toList ∧
    (ProcessLink inRaw outRaw winRaw).subs = subsFrom 0 (commaList inRaw) ∧
    (ProcessLink inRaw outRaw winRaw).dev.nextindex
        = List.replicate (commaList inRaw).length 0 ∧
    (∀ j, j < (commaList inRaw).length →
      (ProcessLink inRaw outRaw winRaw).dev.outtopics.getD j []
          = outtopicAt (commaList outRaw) ((commaList inRaw).getD j []) j ∧
      (ProcessLink inRaw outRaw winRaw).dev.lastvalues.getD j []
          = List.replicate (winsizeAt (commaList winRaw) j) .nan) := by
  obtain ⟨hst, hsubs, _, hentries⟩ :=
    linkLoop_char (commaList outRaw) (commaList winRaw) (commaList inRaw) 0
      ⟨List.replicate (commaList inRaw).length [],
       List.replicate (commaList inRaw).length [],
       List.replicate (commaList inRaw).length 0⟩ []
      (fun j hj hw => by simpa using hok j hj (by simpa using hw))
      (by simp) (by simp)
  have hnx := linkLoop_nextindex (commaList outRaw) (commaList winRaw) (commaList inRaw) 0
      ⟨List.replicate (commaList inRaw).length [],
       List.replicate (commaList inRaw).length [],
       List.replicate (commaList inRaw).length 0⟩ []
  exact ⟨hst, by simpa using hsubs, hnx,
    fun j hj => by simpa using hentries j hj⟩

/-- C7: every channel of a successful ProcessLink starts with write
cursor 0 and a window of positive length (0 ≤ cursor < length), and
addLastValue keeps the window length unchanged while advancing the
cursor modulo the window length, so the invariant is preserved by every
ingest; calculateAverage takes the device read-only in the model, so it
cannot change the window length. -/
theorem window_cursor_invariant :
    (∀ (inRaw outRaw winRaw : GoStr) (i : Nat),
      (∀ j, j < (commaList inRaw).length → j < (commaList winRaw).length →
        parseWinsize ((commaList winRaw).getD j []) ≠ none) →
      i < (commaList inRaw).length →
      (ProcessLink inRaw outRaw winRaw).dev.nextindex.getD i 0 = 0 ∧
      0 < ((ProcessLink inRaw outRaw winRaw).dev.lastvalues.getD i []).length) ∧
    (∀ (d : Device) (i : Nat) (v : GoF),
      d.nextindex.getD i 0 < (d.lastvalues.getD i []).length →
      i < d.nextindex.length →
      ((addLastValue d i v).lastvalues.getD i []).length
          = (d.lastvalues.getD i []).length ∧
      (addLastValue d i v).nextindex.getD i 0
          = (d.nextindex.getD i 0 + 1) % (d.lastvalues.getD i []).length ∧
      (addLastValue d i v).nextindex.getD i 0
          < ((addLastValue d i v).lastvalues.getD i []).length) := by
  constructor
  · intro inRaw outRaw winRaw i hok hi
    obtain ⟨_, _, hnx, hentries⟩ := ProcessLink_char inRaw outRaw winRaw hok
    obtain ⟨_, hlv⟩ := hentries i hi
    constructor
    · rw [hnx]; exact getD_replicate _ i 0 0 hi
    · rw [hlv]; simp [winsizeAt_pos]
  · intro d i v hwf hin
    have hl : i < d.lastvalues.length := by
      by_contra hcon
      rw [List.getD_eq_default d.lastvalues [] (by omega)] at hwf
      simp at hwf
    have hbuf : (addLastValue d i v).lastvalues.getD i []
        = (d.lastvalues.getD i []).set (d.nextindex.getD i 0) v :=
      getD_set_self d.lastvalues i _ [] hl
    have hcur : (addLastValue d i v).nextindex.getD i 0
        = (d.nextindex.getD i 0 + 1)
            % ((d.lastvalues.getD i []).set (d.nextindex.getD i 0) v).length :=
      getD_set_self d.nextindex i _ 0 hin
    have hLen : ((d.lastvalues.getD i []).set (d.nextindex.getD i 0) v).length
        = (d.lastvalues.getD i []).length := by simp
    refine ⟨by rw [hbuf, hLen], by rw [hcur, hLen], ?_⟩
    rw [hbuf, hcur, hLen]
    exact Nat.mod_lt _ (by omega)

theorem window_cursor_invariant_witness :
    ((ProcessLink "a".toList [] []).dev.nextindex.getD 0 0 = 0 ∧
      0 < ((ProcessLink "a".toList [] []).dev.lastvalues.getD 0 []).length) ∧
    (((addLastValue (freshDevice ['x'] 2) 0 (.fin 1)).lastvalues.getD 0 []).length
        = ((freshDevice ['x'] 2).lastvalues.getD 0 []).length ∧
     (addLastValue (freshDevice ['x'] 2) 0 (.fin 1)).nextindex.getD 0 0
        = ((freshDevice ['x'] 2).nextindex.getD 0 0 + 1)
            % ((freshDevice ['x'] 2).lastvalues.getD 0 []).length ∧
     (addLastValue (freshDevice ['x'] 2) 0 (.fin 1)).nextindex.getD 0 0
        < ((addLastValue (freshDevice ['x'] 2) 0 (.fin 1)).lastvalues.getD 0 []).length) :=
  ⟨window_cursor_invariant.1 "a".toList [] [] 0 (by decide) (by decide),
   window_cursor_invariant.2 (freshDevice ['x'] 2) 0 (.fin 1) (by decide) (by decide)⟩

/-- C6: for every input-topic index of a link whose WindowSizes entries
all parse, the output topic is the OutputTopics entry at that index when
present and otherwise the input topic with _avg appended, and the window
size is the parsed WindowSizes entry when present and positive, with the
default 2 when the entry is absent or parses to a nonpositive value. -/
theorem config_defaults (inRaw outRaw winRaw : GoStr) (i : Nat)
    (hok : ∀ j, j < (commaList inRaw).length → j < (commaList winRaw).length →
      parseWinsize ((commaList winRaw).getD j []) ≠ none)
    (hi : i < (commaList inRaw).length) :
    ((ProcessLink inRaw outRaw winRaw).dev.outtopics.getD i [] =
      if i < (commaList outRaw).length then (commaList outRaw).getD i []
      else (commaList inRaw).getD i [] ++ "_avg".toList) ∧
    (∀ v : Int, i < (commaList winRaw).length →
      goParseInt32 ((commaList winRaw).getD i []) = some v →
      ((ProcessLink inRaw outRaw winRaw).dev.lastvalues.getD i []).length
        = if 0 < v then v.toNat else 2) ∧
    ((commaList winRaw).length ≤ i →
      ((ProcessLink inRaw outRaw winRaw).dev.lastvalues.getD i []).length = 2) := by
  obtain ⟨_, _, _, hentries⟩ := ProcessLink_char inRaw outRaw winRaw hok
  obtain ⟨hout, hlv⟩ := hentries i hi
  refine ⟨?_, ?_, ?_⟩
  · rw [hout]; rfl
  · intro v hiw hv
    rw [hlv]
    simp only [List.length_replicate]
    unfold winsizeAt
    rw [if_pos hiw]
    unfold parseWinsize
    rw [hv]
    rfl
  · intro hge
    rw [hlv]
    simp only [List.length_replicate]
    unfold winsizeAt
    rw [if_neg (by omega)]
    rfl

theorem config_defaults_witness :
    ((ProcessLink "temp,freq".toList "t2".toList "3,5".toList).dev.outtopics.getD 0 [] =
      if 0 < (commaList "t2".toList).length then (commaList "t2".toList).getD 0 []
      else (commaList "temp,freq".toList).getD 0 [] ++ "_avg".toList) ∧
    (∀ v : Int, 0 < (commaList "3,5".toList).length →
      goParseInt32 ((commaList "3,5".toList).getD 0 []) = some v →
      ((ProcessLink "temp,freq".toList "t2".toList "3,5".toList).dev.lastvalues.getD 0 []).length
        = if 0 < v then v.toNat else 2) ∧
    ((commaList "3,5".toList).length ≤ 0 →
      ((ProcessLink "temp,freq".toList "t2".toList "3,5".toList).dev.lastvalues.getD 0 []).length = 2) :=
  config_defaults "temp,freq".toList "t2".toList "3,5".toList 0 (by decide) (by decide)

/-- C2 counterexample: with InputTopics "a,b" and WindowSizes "3,abc"
the link fails, yet the returned status is the fixed string "Failed to
parse WindowSize" (which does not name the offending value "abc"), and
the subscription for input topic "a", index 0, earlier than the failing
entry, has already been registered: the failure is not atomic. -/
theorem link_failure_counterexample :
    (ProcessLink "a,b".toList "".toList "3,abc".toList).status
        = "Failed to parse WindowSize".toList ∧
    (ProcessLink "a,b".toList "".toList "3,abc".toList).status ≠ "Success".toList ∧
    (ProcessLink "a,b".toList "".toList "3,abc".toList).subs = [("a".toList, 0)] := by
  refine ⟨by decide, by decide, by decide⟩

/-- C2 amended: when the WindowSizes entry at index f fails to parse and
every earlier entry parses, ProcessLink returns the fixed non-Success
status "Failed to parse WindowSize", which does not name the offending
value, and the subscriptions already registered are exactly those for
the input-topic indices before f; they are not rolled back. -/
theorem link_failure_partial (inRaw outRaw winRaw : GoStr) (f : Nat)
    (hf : f < (commaList inRaw).length)
    (hfw : f < (commaList winRaw).length)
    (hok : ∀ j, j < f → j < (commaList winRaw).length →
      parseWinsize ((commaList winRaw).getD j []) ≠ none)
    (hbad : parseWinsize ((commaList winRaw).getD f []) = none) :
    (ProcessLink inRaw outRaw winRaw).status = "Failed to parse WindowSize".toList ∧
    (ProcessLink inRaw outRaw winRaw).status ≠ "Success".toList ∧
    (ProcessLink inRaw outRaw winRaw).subs
        = subsFrom 0 ((commaList inRaw).take f) := by
  obtain ⟨hst, hsubs⟩ :=
    linkLoop_fail (commaList outRaw) (commaList winRaw) (commaList inRaw) 0
      ⟨List.replicate (commaList inRaw).length [],
       List.replicate (commaList inRaw).length [],
       List.replicate (commaList inRaw).length 0⟩ [] f hf
      (fun j hj hw => by simpa using hok j hj (by simpa using hw))
      (by simpa using hfw) (by simpa using hbad)
  have hne : ("Failed to parse WindowSize".toList : GoStr) ≠ "Success".toList := by decide
  exact ⟨hst, fun hcon => hne (hst.symm.trans hcon), by simpa using hsubs⟩

theorem link_failure_partial_witness :
    (ProcessLink "a,b".toList "".toList "3,abc".toList).status
        = "Failed to parse WindowSize".toList ∧
    (ProcessLink "a,b".toList "".toList "3,abc".toList).status ≠ "Success".toList ∧
    (ProcessLink "a,b".toList "".toList "3,abc".toList).subs
        = subsFrom 0 ((commaList "a,b".toList).take 1) :=
  link_failure_partial "a,b".toList "".toList "3,abc".toList 1
    (by decide) (by decide) (by decide) (by decide)

/-- C10: window sizes are parsed with a 32-bit bound: every WindowSizes
entry that is a well-formed optionally signed decimal integer whose
value lies outside the int32 range fails to parse, and when such an
entry is the first WindowSizes entry of a link with at least one input
topic, ProcessLink fails for the whole link. -/
theorem windowsize_32bit_bound (inRaw outRaw winRaw : GoStr) (neg : Bool) (ds : GoStr)
    (hne : ds ≠ []) (hdig : ds.all Char.isDigit = true)
    (hform : (commaList winRaw).getD 0 [] = (if neg then ['-'] else []) ++ ds)
    (hin : commaList inRaw ≠ [])
    (hrange : (if neg then -(digitsVal ds : Int) else (digitsVal ds : Int)) < int32Min ∨
      int32Max < (if neg then -(digitsVal ds : Int) else (digitsVal ds : Int))) :
    goParseInt32 ((commaList winRaw).getD 0 []) = none ∧
    (ProcessLink inRaw outRaw winRaw).status
        = "Failed to parse WindowSize".toList := by
  have hsign : splitSign ((if neg then ['-'] else []) ++ ds) = (neg, ds) := by
    cases ds with
    | nil => exact absurd rfl hne
    | cons c r =>
      have hc : c.isDigit = true := by
        have h2 := hdig
        simp only [List.all_cons, Bool.and_eq_true] at h2
        exact h2.1
      have hcp : c ≠ '+' := by
        intro e; rw [e] at hc; exact absurd hc (by decide)
      have hcm : c ≠ '-' := by
        intro e; rw [e] at hc; exact absurd hc (by decide)
      cases neg with
      | false => simp [splitSign, hcp, hcm]
      | true => simp [splitSign]
  have hdv : digitsVal? ds = some (digitsVal ds) := by
    unfold digitsVal?
    rw [if_pos ⟨hne, hdig⟩]
  have hparse : goParseInt32 ((commaList winRaw).getD 0 []) = none := by
    rw [hform]
    simp only [goParseInt32, hsign, hdv]
    rw [if_pos hrange]
  refine ⟨hparse, ?_⟩
  have hbad0 : parseWinsize ((commaList winRaw).getD 0 []) = none := by
    unfold parseWinsize
    rw [hparse]
  have hw0 : 0 < (commaList winRaw).length := by
    by_contra hcon
    rw [List.getD_eq_default (commaList winRaw) [] (by omega)] at hform
    have hlen := congrArg List.length hform
    cases neg with
    | false =>
      simp at hlen
      exact hne (List.eq_nil_of_length_eq_zero hlen.symm)
    | true => simp at hlen
  have hi0 : 0 < (commaList inRaw).length := List.length_pos.mpr hin
  obtain ⟨hst, _⟩ :=
    linkLoop_fail (commaList outRaw) (commaList winRaw) (commaList inRaw) 0
      ⟨List.replicate (commaList inRaw).length [],
       List.replicate (commaList inRaw).length [],
       List.replicate (commaList inRaw).length 0⟩ [] 0 hi0
      (fun j hj _ => absurd hj (Nat.not_lt_zero j))
      (by simpa using hw0) (by simpa using hbad0)
  exact hst

theorem windowsize_32bit_bound_witness :
    goParseInt32 ((commaList "5000000000".toList).getD 0 []) = none ∧
    (ProcessLink "a".toList "".toList "5000000000".toList).status
        = "Failed to parse WindowSize".toList :=
  windowsize_32bit_bound "a".toList "".toList "5000000000".toList false
    "5000000000".toList (by decide) (by decide) (by decide) (by decide) (by decide)

lemma winIdx_id (n k j : Nat) (hj : j < k) (hk : k ≤ n) : winIdx n k j = j := by
  unfold winIdx
  rw [Nat.div_eq_of_lt (by omega)]
  omega

lemma winIdx_last (n k : Nat) (hn : 0 < n) : winIdx n (k + 1) (k % n) = k := by
  unfold winIdx
  have h := Nat.div_add_mod k n
  have e1 : k + 1 - 1 - k % n = n * (k / n) := by omega
  rw [e1, Nat.mul_div_cancel_left _ hn]
  omega

lemma winIdx_old (n k : Nat) (hn : 0 < n) (hk : n ≤ k) :
    winIdx n k (k % n) = k - n := by
  unfold winIdx
  have h := Nat.div_add_mod k n
  have hq : 1 ≤ k / n := (Nat.one_le_div_iff hn).mpr hk
  obtain ⟨q2, hq2⟩ : ∃ q2, k / n = q2 + 1 := ⟨k / n - 1, by omega⟩
  rw [hq2] at h
  rw [Nat.mul_succ] at h
  have e1 : k - 1 - k % n = (n - 1) + n * q2 := by omega
  rw [e1, Nat.add_mul_div_left _ _ hn, Nat.div_eq_of_lt (by omega), Nat.zero_add]
  omega

lemma winIdx_stable (n k j : Nat) (hjn : j < n) (hjk : j < k)
    (hne : j ≠ k % n) : winIdx n (k + 1) j = winIdx n k j := by
  unfold winIdx
  have hdvd : ¬ n ∣ (k - j) := by
    intro hd
    obtain ⟨q, hq⟩ := hd
    have hkj : k = j + n * q := by omega
    have : k % n = j % n := by rw [hkj, Nat.add_mul_mod_self_left]
    rw [Nat.mod_eq_of_lt hjn] at this
    exact hne this.symm
  have e1 : k + 1 - 1 - j = (k - 1 - j) + 1 := by omega
  rw [e1, Nat.succ_div,
    if_neg (by rw [show k - 1 - j + 1 = k - j by omega]; exact hdvd),
    Nat.add_zero]

lemma slotAfter_update (n k : Nat) (qs : List ℚ) (j : Nat) (hn : 0 < n) (hjn : j < n) :
    slotAfter n (k + 1) qs j
      = if k % n = j then .fin (qs.getD k 0) else slotAfter n k qs j := by
  by_cases hje : k % n = j
  · subst hje
    rw [if_pos rfl]
    unfold slotAfter
    rw [if_pos (by have := Nat.mod_le k n; omega), winIdx_last n k hn]
  · rw [if_neg hje]
    by_cases hjk : j < k
    · unfold slotAfter
      rw [if_pos (by omega), if_pos hjk,
        winIdx_stable n k j hjn hjk (fun e => hje e.symm)]
    · have hjk2 : ¬ j < k + 1 := by
        intro hcon
        have : j = k := by omega
        subst this
        exact hje (Nat.mod_eq_of_lt hjn)
      unfold slotAfter
      rw [if_neg hjk2, if_neg hjk]

lemma ingestList_single (t : GoStr) (vs : List GoF) :
    ∀ (buf : List GoF) (c : Nat),
      ingestList ⟨[t], [buf], [c]⟩ 0 vs
        = ⟨[t], [(vs.foldl stepBuf (buf, c)).1], [(vs.foldl stepBuf (buf, c)).2]⟩ := by
  induction vs with
  | nil => intro buf c; rfl
  | cons v rest ih =>
    intro buf c
    have h1 : ingestList ⟨[t], [buf], [c]⟩ 0 (v :: rest)
        = ingestList ⟨[t], [buf.set c v], [(c + 1) % (buf.set c v).length]⟩ 0 rest := by
      simp only [ingestList, List.foldl_cons]
      rfl
    rw [h1, ih]
    rfl

lemma foldl_stepBuf_char (n : Nat) (hn : 0 < n) (qs : List ℚ) :
    ∀ k, k ≤ qs.length →
      ((qs.take k).map GoF.fin).foldl stepBuf (List.replicate n .nan, 0)
        = ((List.range n).map (slotAfter n k qs), k % n) := by
  intro k
  induction k with
  | zero =>
    intro _
    have hmap : (List.range n).map (slotAfter n 0 qs) = List.replicate n .nan := by
      apply List.eq_replicate_iff.mpr
      refine ⟨by simp, ?_⟩
      intro b hb
      simp only [List.mem_map] at hb
      obtain ⟨j, _, hj2⟩ := hb
      rw [← hj2]
      rfl
    rw [hmap]
    simp
  | succ k ih =>
    intro hk1
    have hk : k ≤ qs.length := by omega
    have htake : qs.take (k + 1) = qs.take k ++ [qs.getD k 0] := by
      rw [List.take_succ, List.getElem?_eq_getElem (show k < qs.length by omega)]
      rw [List.getD_eq_getElem qs 0 (show k < qs.length by omega)]
      rfl
    rw [htake, List.map_append, List.foldl_append, ih hk]
    simp only [List.map_cons, List.map_nil, List.foldl_cons, List.foldl_nil]
    have hbuf : (((List.range n).map (slotAfter n k qs)).set (k % n)
          (.fin (qs.getD k 0)))
        = (List.range n).map (slotAfter n (k + 1) qs) := by
      apply List.ext_getElem
      · simp
      · intro j h1 h2
        have hjn : j < n := by simpa using h2
        rw [List.getElem_set, List.getElem_map, List.getElem_map,
          List.getElem_range, slotAfter_update n k qs j hn hjn]
    unfold stepBuf
    rw [hbuf]
    have hlen : (((List.range n).map (slotAfter n k qs)).set (k % n)
        (GoF.fin (qs.getD k 0))).length = n := by simp
    rw [hbuf] at hlen
    rw [hlen, Nat.mod_add_mod k n 1]

lemma nonNaNCount_append (a b : List GoF) :
    nonNaNCount (a ++ b) = nonNaNCount a + nonNaNCount b := by
  induction a with
  | nil => simp [nonNaNCount]
  | cons v r ih => simp [nonNaNCount, ih]; omega

lemma finSum_append (a b : List GoF) : finSum (a ++ b) = finSum a + finSum b := by
  induction a with
  | nil => simp [finSum]
  | cons v r ih =>
    cases v with
    | nan => simpa [finSum] using ih
    | inf s => simpa [finSum] using ih
    | fin q => simp [finSum, ih]; ring

lemma nonNaNCount_slotMap (n k : Nat) (qs : List ℚ) :
    ∀ m, nonNaNCount ((List.range m).map (slotAfter n k qs)) = min m k := by
  intro m
  induction m with
  | zero => simp [nonNaNCount]
  | succ m2 ih =>
    rw [List.range_succ, List.map_append, nonNaNCount_append, ih]
    simp only [List.map_cons, List.map_nil]
    by_cases hm : m2 < k
    · have h1 : nonNaNCount [slotAfter n k qs m2] = 1 := by
        simp [nonNaNCount, slotAfter, hm, GoF.isNaN]
      rw [h1]; omega
    · have h1 : nonNaNCount [slotAfter n k qs m2] = 0 := by
        simp [nonNaNCount, slotAfter, hm, GoF.isNaN]
      rw [h1]; omega

lemma finSum_slotMap (n k : Nat) (qs : List ℚ) :
    ∀ m, finSum ((List.range m).map (slotAfter n k qs))
      = ∑ j ∈ Finset.range (min m k), qs.getD (winIdx n k j) 0 := by
  intro m
  induction m with
  | zero => simp [finSum]
  | succ m2 ih =>
    rw [List.range_succ, List.map_append, finSum_append, ih]
    simp only [List.map_cons, List.map_nil]
    by_cases hm : m2 < k
    · have hmin1 : min (m2 + 1) k = min m2 k + 1 := by omega
      have hmin2 : min m2 k = m2 := by omega
      rw [hmin1, Finset.sum_range_succ, hmin2]
      have h1 : finSum [slotAfter n k qs m2] = qs.getD (winIdx n k m2) 0 := by
        simp [finSum, slotAfter, hm]
      rw [h1]
    · have hmin1 : min (m2 + 1) k = min m2 k := by omega
      have h1 : finSum [slotAfter n k qs m2] = 0 := by
        simp [finSum, slotAfter, hm]
      rw [hmin1, h1, add_zero]

lemma sum_window (n : Nat) (hn : 0 < n) (qs : List ℚ) :
    ∀ k, n ≤ k →
      ∑ j ∈ Finset.range n, qs.getD (winIdx n k j) 0
        = ∑ i ∈ Finset.Ico (k - n) k, qs.getD i 0 := by
  refine Nat.le_induction ?_ ?_
  · have hc : ∀ j ∈ Finset.range n, qs.getD (winIdx n n j) 0 = qs.getD j 0 := by
      intro j hj
      rw [winIdx_id n n j (Finset.mem_range.mp hj) (le_refl n)]
    rw [Finset.sum_congr rfl hc, Nat.sub_self, Finset.range_eq_Ico]
  · intro k hk ih
    have hmem : k % n ∈ Finset.range n := Finset.mem_range.mpr (Nat.mod_lt k hn)
    have hcur : ∀ j ∈ Finset.range n,
        qs.getD (winIdx n (k + 1) j) 0
          = Function.update (fun j2 => qs.getD (winIdx n k j2) 0) (k % n)
              (qs.getD k 0) j := by
      intro j hj
      rw [Function.update_apply]
      by_cases hje : j = k % n
      · subst hje
        rw [if_pos rfl, winIdx_last n k hn]
      · have hjn2 : j < n := Finset.mem_range.mp hj
        rw [if_neg hje, winIdx_stable n k j hjn2 (by omega) hje]
    rw [Finset.sum_congr rfl hcur, Finset.sum_update_of_mem hmem]
    have hold := Finset.sum_eq_sum_diff_singleton_add hmem
      (fun j2 => qs.getD (winIdx n k j2) 0)
    have hGk : qs.getD (winIdx n k (k % n)) 0 = qs.getD (k - n) 0 := by
      rw [winIdx_old n k hn hk]
    have h1 : ∑ i ∈ Finset.Ico (k + 1 - n) (k + 1), qs.getD i 0
        = (∑ i ∈ Finset.Ico (k + 1 - n) k, qs.getD i 0) + qs.getD k 0 :=
      Finset.sum_Ico_succ_top (by omega) _
    have h2 : ∑ i ∈ Finset.Ico (k - n) k, qs.getD i 0
        = qs.getD (k - n) 0 + ∑ i ∈ Finset.Ico (k - n + 1) k, qs.getD i 0 :=
      Finset.sum_eq_sum_Ico_succ_bot (by omega) _
    have e : k + 1 - n = k - n + 1 := by omega
    rw [e] at h1 ⊢
    linarith [ih, hold, hGk, h1, h2]

/-- C1: on a channel with window size n ≥ 1 in the state ProcessLink
creates it (all slots NaN, cursor 0), after ingesting k ≥ 1 finite
samples the k-th ingest (addLastValue followed by calculateAverage)
returns exactly the arithmetic mean of the last min(k, n) samples: the
startup mean of all k samples while k < n, and the true sliding mean of
the n most recent samples once k ≥ n. -/
theorem sliding_window_average (n : Nat) (hn : 1 ≤ n) (t : GoStr) (qs : List ℚ)
    (k : Nat) (hk1 : 1 ≤ k) (hk2 : k ≤ qs.length) :
    calculateAverage (ingestList (freshDevice t n) 0 ((qs.take k).map GoF.fin)) 0
      = .fin ((∑ i ∈ Finset.Ico (k - min k n) k, qs.getD i 0) / (min k n : ℚ)) := by
  have hfold := foldl_stepBuf_char n (by omega) qs k hk2
  have hdev : ingestList (freshDevice t n) 0 ((qs.take k).map GoF.fin)
      = ⟨[t], [(List.range n).map (slotAfter n k qs)], [k % n]⟩ := by
    rw [show freshDevice t n = ⟨[t], [List.replicate n .nan], [0]⟩ from rfl,
      ingestList_single t _ (List.replicate n .nan) 0, hfold]
  rw [hdev]
  have hnoinf : ∀ v ∈ ((⟨[t], [(List.range n).map (slotAfter n k qs)], [k % n]⟩ :
      Device).lastvalues.getD 0 []), v.isInf = false := by
    intro v hv
    have hv2 : v ∈ (List.range n).map (slotAfter n k qs) := hv
    simp only [List.mem_map] at hv2
    obtain ⟨j, _, hj⟩ := hv2
    rw [← hj]
    unfold slotAfter
    split <;> rfl
  rw [calculateAverage_skips_nan _ 0 hnoinf]
  rw [show ((⟨[t], [(List.range n).map (slotAfter n k qs)], [k % n]⟩ :
      Device).lastvalues.getD 0 []) = (List.range n).map (slotAfter n k qs) from rfl]
  rw [nonNaNCount_slotMap n k qs n, finSum_slotMap n k qs n]
  have hmin : ¬ (min n k = 0) := by omega
  rw [if_neg hmin]
  congr 1
  by_cases hkn : k ≤ n
  · have h1 : min n k = k := by omega
    have h2 : min k n = k := by omega
    rw [h1, h2, Nat.sub_self]
    have hc : ∀ j ∈ Finset.range k, qs.getD (winIdx n k j) 0 = qs.getD j 0 := by
      intro j hj
      rw [winIdx_id n k j (Finset.mem_range.mp hj) hkn]
    rw [Finset.sum_congr rfl hc, Finset.range_eq_Ico, ← Nat.cast_min, h2]
  · have h1 : min n k = n := by omega
    have h2 : min k n = n := by omega
    rw [h1, h2, sum_window n (by omega) qs k (by omega), ← Nat.cast_min, h2]

theorem sliding_window_average_witness :
    calculateAverage
        (ingestList (freshDevice ['x'] 3) 0
          ((([10, 20, 30, 40] : List ℚ).take 4).map GoF.fin)) 0
      = .fin ((∑ i ∈ Finset.Ico (4 - min 4 3) 4, ([10, 20, 30, 40] : List ℚ).getD i 0)
          / (min 4 3 : ℚ)) ∧
    GoF.fin ((∑ i ∈ Finset.Ico (4 - min 4 3) 4, ([10, 20, 30, 40] : List ℚ).getD i 0)
          / (min 4 3 : ℚ)) = .fin 30 :=
  ⟨sliding_window_average 3 (by decide) ['x'] [10, 20, 30, 40] 4 (by decide) (by decide),
   by norm_num [Finset.sum_Ico_eq_sum_range, Finset.sum_range_succ, List.getD]⟩
